import Mathlib

/-!
Verification of a threaded colliding-particle simulation.

The program simulates point particles in a square enclosure: each tick moves
every particle by a rejection-sampled random displacement and then counts,
within each contiguous chunk of the particle sequence, the pairs closer than a
threshold, accumulating the count in a shared counter.

Numbers are modelled as rationals; the random sources are explicit streams of
draws.  The unbounded rejection-sampling loop is modelled on a finite list of
draws, returning `none` when the list is exhausted before a draw is accepted.
-/

namespace CollidingParticles

/-- Worker-pool size, also used as the chunk length (`NUM_OF_THREADS` in the
source). -/
def NUM_OF_THREADS : ℕ := 4

/-- A 2D particle position (`struct Particle { x: f64, y: f64 }`). -/
structure Particle where
  x : ℚ
  y : ℚ
deriving Repr, DecidableEq

instance : Inhabited Particle := ⟨⟨0, 0⟩⟩

/-- Constructor `Particle::new`. -/
def Particle.new (x y : ℚ) : Particle := ⟨x, y⟩

/-- Predicate `Particle::collide`: squared Euclidean distance at most `threshold²`. -/
def Particle.collide (self other : Particle) (threshold : ℚ) : Bool :=
  let dx := self.x - other.x
  let dy := self.y - other.y
  let distance_squared := dx * dx + dy * dy
  decide (distance_squared ≤ threshold * threshold)

/-- The boundary condition checked by the mover's rejection test and asserted
by the spec's boundary invariant. -/
def inEnclosure (enclosure_size : ℚ) (p : Particle) : Prop :=
  0 ≤ p.x ∧ p.x ≤ enclosure_size ∧ 0 ≤ p.y ∧ p.y ≤ enclosure_size

instance (E : ℚ) (p : Particle) : Decidable (inEnclosure E p) := by
  unfold inEnclosure; infer_instance

/-- The rejection-sampling loop body of `thread_move_particles` for one
particle: draw `(rand_x, rand_y)`, form the candidate, commit it if it lies in
the enclosure, otherwise retry on the rest of the stream.  `none` models
running out of draws (the source loops forever). -/
def moveParticleLoop (enclosure_size : ℚ) (p : Particle) :
    List (ℚ × ℚ) → Option Particle
  | [] => none
  | (rand_x, rand_y) :: rest =>
    let new_x := p.x + ((rand_x - 1/2) * 2)
    let new_y := p.y + ((rand_y - 1/2) * 2)
    if 0 ≤ new_x ∧ new_x ≤ enclosure_size ∧ 0 ≤ new_y ∧ new_y ≤ enclosure_size then
      some ⟨new_x, new_y⟩
    else
      moveParticleLoop enclosure_size p rest

/-- Worker body `thread_move_particles`: move every particle of a slice in order, each
consuming its own stream of draws. -/
def thread_move_particles (enclosure_size : ℚ) :
    List Particle → List (List (ℚ × ℚ)) → Option (List Particle)
  | [], _ => some []
  | _ :: _, [] => none
  | p :: ps, draws :: rest =>
    match moveParticleLoop enclosure_size p draws with
    | none => none
    | some p' =>
      match thread_move_particles enclosure_size ps rest with
      | none => none
      | some ps' => some (p' :: ps')

/-- The iteration space of the nested loops of `thread_check_collisions`:
`for i in 0..k { for j in (i+1)..k { ... } }`, in loop order. -/
def pairIndices (k : ℕ) : List (ℕ × ℕ) :=
  (List.range k).flatMap fun i =>
    (List.range' (i + 1) (k - (i + 1))).map fun j => (i, j)

/-- Worker body `thread_check_collisions`: scan all within-chunk index pairs `(i, j)`,
`i < j`, and add one to the counter for every colliding pair. -/
def thread_check_collisions (chunk : List Particle) (threshold : ℚ)
    (collision_counter : ℕ) : ℕ :=
  collision_counter + (pairIndices chunk.length).countP fun ij =>
    (chunk.getD ij.1 default).collide (chunk.getD ij.2 default) threshold

/-- Rust's `slice::chunks(n)` on lists: contiguous chunks of length `n`, the
last one possibly shorter. -/
def chunksOf {α : Type} (n : ℕ) (l : List α) : List (List α) :=
  match l with
  | [] => []
  | x :: xs =>
    if n = 0 then [x :: xs]
    else (x :: xs).take n :: chunksOf n ((x :: xs).drop n)
termination_by l.length
decreasing_by
  simp only [List.length_drop, List.length_cons]
  omega

/-- The chunk-length profile of `chunksOf n` as a function of the list length
alone. -/
def chunkSizes (n : ℕ) (len : ℕ) : List ℕ :=
  if len = 0 then []
  else if n = 0 then [len]
  else if len ≤ n then [len]
  else n :: chunkSizes n (len - n)
termination_by len
decreasing_by omega

/-- The state `struct ParticleSystem`. -/
structure ParticleSystem where
  particles : List Particle
  collision_counter : ℕ
deriving Repr, DecidableEq

/-- Constructor `ParticleSystem::new`: one particle per position draw; each draw is sampled
from `[0, max_x) × [0, max_y)` (a hypothesis wherever it matters).  The counter
starts at 0. -/
def ParticleSystem.new (draws : List (ℚ × ℚ)) : ParticleSystem :=
  { particles := draws.map fun d => Particle.new d.1 d.2
    collision_counter := 0 }

/-- The per-chunk fan-out of `ParticleSystem::move_particles`: each chunk of
particles is moved by `thread_move_particles` with the matching chunk of
streams, and the results are joined in order. -/
def moveChunks (enclosure_size : ℚ) :
    List (List Particle) → List (List (List (ℚ × ℚ))) → Option (List Particle)
  | [], _ => some []
  | _ :: _, [] => none
  | c :: cs, s :: ss =>
    match thread_move_particles enclosure_size c s, moveChunks enclosure_size cs ss with
    | some c', some rest => some (c' ++ rest)
    | _, _ => none

/-- Method `ParticleSystem::move_particles`: partition into chunks of
`NUM_OF_THREADS`, move each chunk, join. -/
def ParticleSystem.move_particles (sys : ParticleSystem) (enclosure_size : ℚ)
    (streams : List (List (ℚ × ℚ))) : Option ParticleSystem :=
  (moveChunks enclosure_size (chunksOf NUM_OF_THREADS sys.particles)
      (chunksOf NUM_OF_THREADS streams)).map
    fun ps => { sys with particles := ps }

/-- Method `ParticleSystem::check_collisions`: partition into chunks of
`NUM_OF_THREADS` and let every chunk's scan add its collisions to the shared
counter.  The atomic increments of the tasks commute, so their total is the
fold of the per-chunk scans. -/
def ParticleSystem.check_collisions (sys : ParticleSystem) (threshold : ℚ) :
    ParticleSystem :=
  { sys with
    collision_counter :=
      (chunksOf NUM_OF_THREADS sys.particles).foldl
        (fun c chunk => thread_check_collisions chunk threshold c)
        sys.collision_counter }

/-! ## Tested pairs

The index pairs that `check_collisions` examines, in global coordinates: the
chunk starting at `start` of a remaining suffix of length `len` contributes the
pairs of its own `min n len` indices, shifted by `start`. -/

/-- The index pairs of one chunk, shifted to global coordinates. -/
def offsetPairs (start k : ℕ) : List (ℕ × ℕ) :=
  (pairIndices k).map fun ij => (start + ij.1, start + ij.2)

/-- All index pairs examined by the chunked scan of a sequence of length
`len`, with chunk length `n`, the first chunk starting at `start`. -/
def globalTestedPairs (n : ℕ) (start len : ℕ) : List (ℕ × ℕ) :=
  if len = 0 then []
  else if n = 0 then offsetPairs start len
  else offsetPairs start (min n len) ++ globalTestedPairs n (start + n) (len - n)
termination_by len
decreasing_by omega

/-- The spec-side collision count: the number of unordered index pairs
`(i, j)`, `i < j`, lying in the same length-`NUM_OF_THREADS` chunk, whose
particles are at squared distance at most `threshold²`. -/
def collidingPairCount (threshold : ℚ) (ps : List Particle) : ℕ :=
  ((Finset.range ps.length ×ˢ Finset.range ps.length).filter fun ij =>
    ij.1 < ij.2 ∧ ij.1 / NUM_OF_THREADS = ij.2 / NUM_OF_THREADS ∧
      ((ps.getD ij.1 default).x - (ps.getD ij.2 default).x) ^ 2 +
        ((ps.getD ij.1 default).y - (ps.getD ij.2 default).y) ^ 2 ≤
        threshold ^ 2).card

/-! ## The driver loop of `main`

`main` does not call `move_particles` and `check_collisions`.  Its loop body
opens a single `pool.scoped` block and submits into it one movement task per
chunk followed by one collision task per chunk; the only barrier is the end of
the block.  We model a task as its kind plus its chunk index, a `pool.scoped`
block as a batch (a list of tasks with no ordering guarantee among them), and a
tick as a list of batches separated by barriers. -/

/-- A worker task: move chunk `c`, or scan chunk `c` for collisions. -/
inductive Task where
  | moveTask : ℕ → Task
  | checkTask : ℕ → Task
deriving Repr, DecidableEq

/-- Whether a task is a movement task. -/
def Task.isMove : Task → Bool
  | .moveTask _ => true
  | .checkTask _ => false

/-- The single batch submitted by one iteration of `main`'s loop, for `k`
chunks: all movement tasks, then all collision tasks, inside one
`pool.scoped`. -/
def mainTickTasks (k : ℕ) : List Task :=
  ((List.range k).map Task.moveTask) ++ ((List.range k).map Task.checkTask)

/-- The tick of `main` as a barrier-separated batch list: one batch. -/
def mainTickBatches (k : ℕ) : List (List Task) :=
  [mainTickTasks k]

/-- The tick of a driver that calls `move_particles` then `check_collisions`:
each method opens its own `pool.scoped`, so the tick is two batches with a
barrier between them. -/
def methodTickBatches (k : ℕ) : List (List Task) :=
  [(List.range k).map Task.moveTask, (List.range k).map Task.checkTask]

/-- A batch list keeps the phases apart when no batch mixes a movement task
with a collision task. -/
def phaseSeparated (batches : List (List Task)) : Bool :=
  batches.all fun b => b.all Task.isMove || b.all fun t => !t.isMove

/-- Executing one task on the system state.  A movement task rewrites its
chunk (particles `[n*c, n*c + n)`) using the matching per-particle streams; a
collision task adds its chunk's collision count to the shared counter. -/
def runTask (enclosure_size threshold : ℚ) (streams : List (List (ℚ × ℚ))) :
    Task → ParticleSystem → Option ParticleSystem
  | .moveTask c, sys =>
    let n := NUM_OF_THREADS
    let chunk := (sys.particles.drop (n * c)).take n
    let schunk := (streams.drop (n * c)).take n
    (thread_move_particles enclosure_size chunk schunk).map fun chunk' =>
      { sys with
        particles :=
          sys.particles.take (n * c) ++ chunk' ++ sys.particles.drop (n * c + n) }
  | .checkTask c, sys =>
    let n := NUM_OF_THREADS
    let chunk := (sys.particles.drop (n * c)).take n
    some { sys with
           collision_counter :=
             thread_check_collisions chunk threshold sys.collision_counter }

/-- Executing a list of tasks sequentially: one interleaving (schedule) of a
batch. -/
def runTasks (enclosure_size threshold : ℚ) (streams : List (List (ℚ × ℚ))) :
    List Task → ParticleSystem → Option ParticleSystem
  | [], sys => some sys
  | t :: ts, sys =>
    (runTask enclosure_size threshold streams t sys).bind
      (runTasks enclosure_size threshold streams ts)

/-! ## Facts about `collide` -/

/-- Claim C4: `Particle.collide` returns true iff the squared Euclidean
distance between the two particles is at most `threshold²`; the boundary is
inclusive, so squared distance exactly `threshold²` collides and any strictly
larger squared distance does not.  (The function is pure: it is a plain
function of its arguments.) -/
theorem collide_iff_distSq_le (a b : Particle) (t : ℚ) :
    a.collide b t = true ↔ (a.x - b.x) ^ 2 + (a.y - b.y) ^ 2 ≤ t ^ 2 := by
  simp [Particle.collide, pow_two]

/-- Claim C9: `collide` is symmetric in its two particles, for every
threshold. -/
theorem collide_symm (a b : Particle) (t : ℚ) :
    a.collide b t = b.collide a t := by
  simp only [Particle.collide]
  rw [decide_eq_decide]
  constructor <;> intro h <;> nlinarith [h]

/-- Claim C10: the threshold enters `collide` only through its square, so its
sign is irrelevant: `collide a b t = collide a b (-t)`; in particular two
coincident particles collide at every threshold, negative ones included. -/
theorem collide_neg_threshold (a b : Particle) (t : ℚ) :
    a.collide b t = a.collide b (-t) ∧ a.collide a t = true := by
  constructor
  · simp only [Particle.collide]
    rw [decide_eq_decide]
    have ht : t * t = (-t) * (-t) := by ring
    rw [ht]
  · simp only [Particle.collide]
    rw [decide_eq_true_eq]
    nlinarith [sq_nonneg t]

/-! ## The mover: boundary invariant and displacement bound -/

lemma moveParticleLoop_cons (E : ℚ) (p : Particle) (rx ry : ℚ)
    (rest : List (ℚ × ℚ)) :
    moveParticleLoop E p ((rx, ry) :: rest) =
      if 0 ≤ p.x + ((rx - 1/2) * 2) ∧ p.x + ((rx - 1/2) * 2) ≤ E ∧
          0 ≤ p.y + ((ry - 1/2) * 2) ∧ p.y + ((ry - 1/2) * 2) ≤ E then
        some ⟨p.x + ((rx - 1/2) * 2), p.y + ((ry - 1/2) * 2)⟩
      else moveParticleLoop E p rest := rfl

/-- The rejection test only ever commits an in-enclosure candidate. -/
lemma moveParticleLoop_inEnclosure {E : ℚ} {p p' : Particle}
    {draws : List (ℚ × ℚ)} (h : moveParticleLoop E p draws = some p') :
    inEnclosure E p' := by
  induction draws with
  | nil => simp [moveParticleLoop] at h
  | cons d rest ih =>
    obtain ⟨rx, ry⟩ := d
    rw [moveParticleLoop_cons] at h
    split at h
    · rename_i hcond
      cases h
      exact hcond
    · exact ih h

/-- Every particle of a successfully moved slice is in the enclosure. -/
lemma thread_move_particles_inEnclosure {E : ℚ} {ps : List Particle}
    {streams : List (List (ℚ × ℚ))} {ps' : List Particle}
    (h : thread_move_particles E ps streams = some ps') :
    ∀ p' ∈ ps', inEnclosure E p' := by
  induction ps generalizing streams ps' with
  | nil =>
    cases streams with
    | nil =>
      simp only [thread_move_particles, Option.some.injEq] at h
      subst h; simp
    | cons s ss =>
      simp only [thread_move_particles, Option.some.injEq] at h
      subst h; simp
  | cons p ps ih =>
    cases streams with
    | nil => simp [thread_move_particles] at h
    | cons draws rest =>
      rw [thread_move_particles] at h
      cases hm : moveParticleLoop E p draws with
      | none => rw [hm] at h; simp at h
      | some q =>
        rw [hm] at h
        cases ht : thread_move_particles E ps rest with
        | none => rw [ht] at h; simp at h
        | some qs =>
          rw [ht] at h
          simp only [Option.some.injEq] at h
          subst h
          intro p' hp'
          rcases List.mem_cons.mp hp' with rfl | hmem
          · exact moveParticleLoop_inEnclosure hm
          · exact ih ht p' hmem

/-- Every particle of a successfully moved chunked slice is in the
enclosure. -/
lemma moveChunks_inEnclosure {E : ℚ} {cs : List (List Particle)}
    {ss : List (List (List (ℚ × ℚ)))} {ps' : List Particle}
    (h : moveChunks E cs ss = some ps') : ∀ p' ∈ ps', inEnclosure E p' := by
  induction cs generalizing ss ps' with
  | nil =>
    simp only [moveChunks, Option.some.injEq] at h
    subst h; simp
  | cons c cs ih =>
    cases ss with
    | nil => simp [moveChunks] at h
    | cons s ss' =>
      rw [moveChunks] at h
      cases hm : thread_move_particles E c s with
      | none => rw [hm] at h; simp at h
      | some c' =>
        cases ht : moveChunks E cs ss' with
        | none => rw [hm, ht] at h; simp at h
        | some rest =>
          rw [hm, ht] at h
          simp only [Option.some.injEq] at h
          subst h
          intro p' hp'
          rcases List.mem_append.mp hp' with hmem | hmem
          · exact thread_move_particles_inEnclosure hm p' hmem
          · exact ih ht p' hmem

/-- Claim C1: the boundary invariant `0 ≤ x ≤ enclosure_size` and
`0 ≤ y ≤ enclosure_size` holds for every particle immediately after
construction (`ParticleSystem.new` with both coordinate draws from
`[0, enclosure_size)`), and after every movement call — both the chunked
`move_particles` and the per-slice `thread_move_particles` — for every stream
of random draws. -/
theorem boundary_invariant (E : ℚ) (draws : List (ℚ × ℚ))
    (hdraws : ∀ d ∈ draws, 0 ≤ d.1 ∧ d.1 < E ∧ 0 ≤ d.2 ∧ d.2 < E)
    (sys : ParticleSystem) (streams : List (List (ℚ × ℚ)))
    (sys' : ParticleSystem) (hmove : sys.move_particles E streams = some sys')
    (ps ps' : List Particle) (tstreams : List (List (ℚ × ℚ)))
    (hthread : thread_move_particles E ps tstreams = some ps') :
    (∀ p ∈ (ParticleSystem.new draws).particles, inEnclosure E p) ∧
    (∀ p ∈ sys'.particles, inEnclosure E p) ∧
    (∀ p ∈ ps', inEnclosure E p) := by
  refine ⟨?_, ?_, fun p hp => thread_move_particles_inEnclosure hthread p hp⟩
  · intro p hp
    simp only [ParticleSystem.new, Particle.new, List.mem_map] at hp
    obtain ⟨d, hd, rfl⟩ := hp
    obtain ⟨h1, h2, h3, h4⟩ := hdraws d hd
    exact ⟨h1, le_of_lt h2, h3, le_of_lt h4⟩
  · intro p hp
    unfold ParticleSystem.move_particles at hmove
    cases hmc : moveChunks E (chunksOf NUM_OF_THREADS sys.particles)
        (chunksOf NUM_OF_THREADS streams) with
    | none => rw [hmc] at hmove; simp at hmove
    | some qs =>
      rw [hmc] at hmove
      simp only [Option.map_some', Option.some.injEq] at hmove
      have hps : sys'.particles = qs := by rw [← hmove]
      exact moveChunks_inEnclosure hmc p (hps ▸ hp)

/-- Witness for C1 at concrete inputs: a particle constructed from the draw
`(1, 2)`, a particle moved by `move_particles`, and a particle moved by
`thread_move_particles`, all inside the enclosure of size 10. -/
theorem boundary_invariant_witness :
    inEnclosure 10 (Particle.new 1 2) ∧ inEnclosure 10 (Particle.new (4/5) (4/5)) ∧
      inEnclosure 10 (Particle.new 1 1) := by
  have h := boundary_invariant 10 [(1, 2)] (by norm_num)
    ⟨[Particle.new 0 0], 0⟩ [[(9/10, 9/10)]] ⟨[Particle.new (4/5) (4/5)], 0⟩
    (by norm_num [ParticleSystem.move_particles, moveChunks, chunksOf,
      thread_move_particles, moveParticleLoop, Particle.new, NUM_OF_THREADS])
    [Particle.new 1 1] [Particle.new 1 1] [[(1/2, 1/2)]]
    (by norm_num [thread_move_particles, moveParticleLoop, Particle.new])
  exact ⟨h.1 _ (by simp [ParticleSystem.new]), h.2.1 _ (by simp),
    h.2.2 _ (by simp)⟩

/-- Counterexample to C7 as stated: a draw of exactly 0 is a legal draw from
`[0, 1)`, and with it the move from `(1, 1)` commits (the candidate `(0, 1)`
is inside the enclosure), giving a committed displacement of exactly `-1` in
`x` — not strictly inside `(-1, +1)`. -/
theorem displacement_eq_neg_one :
    ((0 : ℚ) ≤ 0 ∧ (0 : ℚ) < 1 ∧ (0 : ℚ) ≤ 1/2 ∧ (1/2 : ℚ) < 1) ∧
    moveParticleLoop 10 (Particle.new 1 1) [(0, 1/2)] = some (Particle.new 0 1) ∧
    (Particle.new 0 1).x - (Particle.new 1 1).x = -1 := by
  refine ⟨by norm_num, ?_, by norm_num [Particle.new]⟩
  norm_num [moveParticleLoop, Particle.new]

/-- Claim C7 (amended): when every draw comes from `[0, 1)`, the committed
displacement of a move lies in the half-open interval `[-1, +1)` in each axis:
at least `-1` (with `-1` attained exactly when the draw is 0) and strictly
below `+1`. -/
theorem displacement_mem_Ico {E : ℚ} {p p' : Particle} {draws : List (ℚ × ℚ)}
    (hdraws : ∀ d ∈ draws, 0 ≤ d.1 ∧ d.1 < 1 ∧ 0 ≤ d.2 ∧ d.2 < 1)
    (h : moveParticleLoop E p draws = some p') :
    (-1 ≤ p'.x - p.x ∧ p'.x - p.x < 1) ∧ (-1 ≤ p'.y - p.y ∧ p'.y - p.y < 1) := by
  induction draws with
  | nil => simp [moveParticleLoop] at h
  | cons d rest ih =>
    obtain ⟨rx, ry⟩ := d
    have hdr := hdraws (rx, ry) (List.mem_cons_self _ _)
    rw [moveParticleLoop_cons] at h
    split at h
    · cases h
      obtain ⟨h1, h2, h3, h4⟩ := hdr
      constructor <;> constructor <;> simp only [] <;> linarith
    · exact ih (fun d hdm => hdraws d (List.mem_cons_of_mem _ hdm)) h

/-- Witness for the amended C7: a move committed from the draw `(1/2, 1/2)`
has displacement 0 in each axis, inside `[-1, 1)`. -/
theorem displacement_mem_Ico_witness :
    ((-1 : ℚ) ≤ (Particle.new 1 1).x - (Particle.new 1 1).x ∧
      (Particle.new 1 1).x - (Particle.new 1 1).x < 1) ∧
    ((-1 : ℚ) ≤ (Particle.new 1 1).y - (Particle.new 1 1).y ∧
      (Particle.new 1 1).y - (Particle.new 1 1).y < 1) :=
  @displacement_mem_Ico 10 (Particle.new 1 1) (Particle.new 1 1) [(1/2, 1/2)]
    (by norm_num) (by norm_num [moveParticleLoop, Particle.new])

/-! ## Chunk partitioning -/

lemma chunksOf_nil {α : Type} (n : ℕ) : chunksOf n ([] : List α) = [] := by
  rw [chunksOf]

lemma chunksOf_cons {α : Type} (n : ℕ) (hn : n ≠ 0) (x : α) (xs : List α) :
    chunksOf n (x :: xs) =
      (x :: xs).take n :: chunksOf n ((x :: xs).drop n) := by
  rw [chunksOf]
  simp [hn]

lemma chunkSizes_zero_len (n : ℕ) : chunkSizes n 0 = [] := by
  rw [chunkSizes]
  simp

lemma chunkSizes_pos (n len : ℕ) (hn : n ≠ 0) (hlen : len ≠ 0) :
    chunkSizes n len = min n len :: chunkSizes n (len - n) := by
  rw [chunkSizes]
  rcases le_or_lt len n with h | h
  · have h0 : len - n = 0 := by omega
    have hmin : min n len = len := by omega
    rw [h0, chunkSizes_zero_len, hmin]
    simp [hlen, hn, h]
  · have hmin : min n len = n := by omega
    rw [hmin]
    simp [hlen, hn, Nat.not_le.mpr h]

/-- Number of chunks of a length-`len` sequence at chunk size 4. -/
lemma chunkSizes_length_four :
    ∀ (budget len : ℕ), len ≤ budget → (chunkSizes 4 len).length = (len + 3) / 4 := by
  intro budget
  induction budget with
  | zero =>
    intro len h
    have h0 : len = 0 := by omega
    subst h0
    simp [chunkSizes_zero_len]
  | succ m ih =>
    intro len h
    by_cases h0 : len = 0
    · subst h0
      simp [chunkSizes_zero_len]
    · rw [chunkSizes_pos 4 len (by norm_num) h0]
      rw [List.length_cons, ih (len - 4) (by omega)]
      omega

/-! ## Phase structure of one tick (claims C5 and C8)

`ParticleSystem::move_particles` and `ParticleSystem::check_collisions` each
open their own `pool.scoped` block, so a driver calling them in order runs two
barrier-separated batches.  `main` instead opens a single `pool.scoped` block
per tick and submits all movement tasks and all collision tasks into it; the
only barrier is the end of that block. -/

/-- Claim C5 fails on `main`: the two-method tick keeps movement and
collision tasks in distinct barrier-separated batches, but `main`'s tick puts
all of them into one batch (shown here for 25 chunks, the chunk count of the
program's 100 particles), so nothing orders a chunk's collision scan after the
movement tasks of the same tick. -/
theorem main_tick_no_phase_barrier :
    phaseSeparated (methodTickBatches 25) = true ∧
    phaseSeparated (mainTickBatches 25) = false ∧
    (chunkSizes NUM_OF_THREADS 100).length = 25 := by
  refine ⟨by decide, by decide, ?_⟩
  show (chunkSizes 4 100).length = 25
  rw [chunkSizes_length_four 100 100 le_rfl]

/-- Claim C8 fails on `main`: with two coincident particles in one chunk, a
stream that moves the second particle away, and the collision task scheduled
before the movement task — a schedule of `main`'s single-batch tick, which has
no barrier between the phases — the tick ends with collision counter 1,
while `move_particles` followed by `check_collisions` ends with the same
particle positions but counter 0. -/
theorem main_tick_schedule_divergence :
    List.Perm [Task.checkTask 0, Task.moveTask 0] (mainTickTasks 1) ∧
    runTasks 10 (1/10) [[(1/2, 1/2)], [(9/10, 9/10)]]
        [Task.checkTask 0, Task.moveTask 0]
        ⟨[Particle.new 0 0, Particle.new 0 0], 0⟩ =
      some ⟨[Particle.new 0 0, Particle.new (4/5) (4/5)], 1⟩ ∧
    (ParticleSystem.move_particles ⟨[Particle.new 0 0, Particle.new 0 0], 0⟩ 10
        [[(1/2, 1/2)], [(9/10, 9/10)]]).map (fun s => s.check_collisions (1/10)) =
      some ⟨[Particle.new 0 0, Particle.new (4/5) (4/5)], 0⟩ := by
  refine ⟨by decide, ?_, ?_⟩
  · norm_num [runTasks, runTask, thread_check_collisions, thread_move_particles,
      moveParticleLoop, pairIndices, Particle.collide, Particle.new,
      NUM_OF_THREADS, List.range_succ]
  · norm_num [ParticleSystem.move_particles, ParticleSystem.check_collisions,
      moveChunks, chunksOf, thread_check_collisions, thread_move_particles,
      moveParticleLoop, pairIndices, Particle.collide, Particle.new,
      NUM_OF_THREADS, List.range_succ]

/-! ## Shape of the chunk partition (claim C6) -/

lemma chunksOf_map_length {α : Type} (n : ℕ) :
    ∀ (budget : ℕ) (l : List α), l.length ≤ budget →
      (chunksOf n l).map List.length = chunkSizes n l.length := by
  intro budget
  induction budget with
  | zero =>
    intro l hl
    have h0 : l = [] := List.eq_nil_of_length_eq_zero (Nat.le_zero.mp hl)
    subst h0
    simp [chunksOf_nil, chunkSizes_zero_len]
  | succ m ih =>
    intro l hl
    cases l with
    | nil => simp [chunksOf_nil, chunkSizes_zero_len]
    | cons x xs =>
      by_cases hn : n = 0
      · subst hn
        rw [chunksOf, chunkSizes]
        simp
      · rw [chunksOf_cons n hn x xs, List.map_cons,
          ih ((x :: xs).drop n)
            (by simp only [List.length_drop, List.length_cons]
                simp only [List.length_cons] at hl
                omega)]
        rw [List.length_take, List.length_drop,
          chunkSizes_pos n (x :: xs).length hn (by simp)]

lemma chunksOf_flatten {α : Type} (n : ℕ) :
    ∀ (budget : ℕ) (l : List α), l.length ≤ budget →
      (chunksOf n l).flatten = l := by
  intro budget
  induction budget with
  | zero =>
    intro l hl
    have h0 : l = [] := List.eq_nil_of_length_eq_zero (Nat.le_zero.mp hl)
    subst h0
    simp [chunksOf_nil]
  | succ m ih =>
    intro l hl
    cases l with
    | nil => simp [chunksOf_nil]
    | cons x xs =>
      by_cases hn : n = 0
      · subst hn
        rw [chunksOf]
        simp
      · rw [chunksOf_cons n hn x xs, List.flatten_cons,
          ih ((x :: xs).drop n)
            (by simp only [List.length_drop, List.length_cons]
                simp only [List.length_cons] at hl
                omega)]
        exact List.take_append_drop n (x :: xs)

lemma chunkSizes_mem (n : ℕ) (hn : n ≠ 0) :
    ∀ (budget len : ℕ), len ≤ budget → ∀ s ∈ chunkSizes n len, 0 < s ∧ s ≤ n := by
  intro budget
  induction budget with
  | zero =>
    intro len h s hs
    have h0 : len = 0 := by omega
    subst h0
    simp [chunkSizes_zero_len] at hs
  | succ m ih =>
    intro len h s hs
    by_cases h0 : len = 0
    · subst h0
      simp [chunkSizes_zero_len] at hs
    · rw [chunkSizes_pos n len hn h0] at hs
      rcases List.mem_cons.mp hs with rfl | hmem
      · constructor <;> omega
      · exact ih (len - n) (by omega) s hmem

lemma chunkSizes_ne_nil (n len : ℕ) (hn : n ≠ 0) (hlen : len ≠ 0) :
    chunkSizes n len ≠ [] := by
  rw [chunkSizes_pos n len hn hlen]
  simp

lemma chunkSizes_dropLast (n : ℕ) (hn : n ≠ 0) :
    ∀ (budget len : ℕ), len ≤ budget →
      ∀ s ∈ (chunkSizes n len).dropLast, s = n := by
  intro budget
  induction budget with
  | zero =>
    intro len h s hs
    have h0 : len = 0 := by omega
    subst h0
    simp [chunkSizes_zero_len] at hs
  | succ m ih =>
    intro len h s hs
    by_cases h0 : len = 0
    · subst h0
      simp [chunkSizes_zero_len] at hs
    · rw [chunkSizes_pos n len hn h0] at hs
      by_cases hrest : len - n = 0
      · rw [hrest, chunkSizes_zero_len] at hs
        simp at hs
      · rw [List.dropLast_cons_of_ne_nil (chunkSizes_ne_nil n (len - n) hn hrest)] at hs
        rcases List.mem_cons.mp hs with rfl | hmem
        · omega
        · exact ih (len - n) (by omega) s hmem

/-- Claim C6: both phases partition the particle sequence with
`chunksOf NUM_OF_THREADS` (the partition `move_particles` and
`check_collisions` are defined over): its chunk-length profile is
`chunkSizes NUM_OF_THREADS`, a pure function of the particle count alone, so
the boundaries are identical across ticks and runs and independent of the
random moves; the chunks concatenate back to the sequence, every chunk except
possibly the last has length exactly `NUM_OF_THREADS`, and every chunk is
nonempty and no longer than `NUM_OF_THREADS`. -/
theorem chunk_partition_spec (l : List Particle) :
    (chunksOf NUM_OF_THREADS l).map List.length = chunkSizes NUM_OF_THREADS l.length ∧
    (chunksOf NUM_OF_THREADS l).flatten = l ∧
    (∀ c ∈ (chunksOf NUM_OF_THREADS l).dropLast, c.length = NUM_OF_THREADS) ∧
    (∀ c ∈ chunksOf NUM_OF_THREADS l, 0 < c.length ∧ c.length ≤ NUM_OF_THREADS) ∧
    (∀ l' : List Particle, l'.length = l.length →
      (chunksOf NUM_OF_THREADS l').map List.length =
        (chunksOf NUM_OF_THREADS l).map List.length) := by
  have hn : NUM_OF_THREADS ≠ 0 := by norm_num [NUM_OF_THREADS]
  have hmap := chunksOf_map_length NUM_OF_THREADS l.length l le_rfl
  refine ⟨hmap, chunksOf_flatten NUM_OF_THREADS l.length l le_rfl, ?_, ?_, ?_⟩
  · intro c hc
    have hmem : c.length ∈ (chunkSizes NUM_OF_THREADS l.length).dropLast := by
      rw [← hmap, ← List.map_dropLast]
      exact List.mem_map_of_mem List.length hc
    exact chunkSizes_dropLast NUM_OF_THREADS hn l.length l.length le_rfl _ hmem
  · intro c hc
    have hmem : c.length ∈ chunkSizes NUM_OF_THREADS l.length := by
      rw [← hmap]
      exact List.mem_map_of_mem List.length hc
    exact chunkSizes_mem NUM_OF_THREADS hn l.length l.length le_rfl _ hmem
  · intro l' hlen
    rw [chunksOf_map_length NUM_OF_THREADS l'.length l' le_rfl, hlen, hmap]

/-- Witness for C6 at a concrete 5-particle sequence: the partition
reassembles the sequence, and an equal-length sequence of different particles
has the same chunk-length profile. -/
theorem chunk_partition_witness :
    (chunksOf NUM_OF_THREADS [Particle.new 0 0, Particle.new 0 0, Particle.new 0 0,
        Particle.new 0 0, Particle.new 0 0]).flatten =
      [Particle.new 0 0, Particle.new 0 0, Particle.new 0 0,
        Particle.new 0 0, Particle.new 0 0] ∧
    (chunksOf NUM_OF_THREADS [Particle.new 1 1, Particle.new 2 2, Particle.new 3 3,
        Particle.new 4 4, Particle.new 5 5]).map List.length =
      (chunksOf NUM_OF_THREADS [Particle.new 0 0, Particle.new 0 0, Particle.new 0 0,
        Particle.new 0 0, Particle.new 0 0]).map List.length := by
  have h := chunk_partition_spec [Particle.new 0 0, Particle.new 0 0,
    Particle.new 0 0, Particle.new 0 0, Particle.new 0 0]
  exact ⟨h.2.1, h.2.2.2.2 _ (by simp)⟩

/-! ## The pairs examined by the collision scan (claims C2 and C3) -/

lemma pairIndices_mem (k : ℕ) (ij : ℕ × ℕ) :
    ij ∈ pairIndices k ↔ ij.1 < ij.2 ∧ ij.2 < k := by
  obtain ⟨i, j⟩ := ij
  simp only [pairIndices, List.mem_flatMap, List.mem_map, List.mem_range,
    List.mem_range'_1]
  constructor
  · rintro ⟨a, ha, b, hb, heq⟩
    rw [Prod.mk.injEq] at heq
    obtain ⟨rfl, rfl⟩ := heq
    exact ⟨by omega, by omega⟩
  · rintro ⟨h1, h2⟩
    exact ⟨i, by omega, j, by omega, rfl⟩

lemma pairIndices_nodup (k : ℕ) : (pairIndices k).Nodup := by
  rw [pairIndices, List.nodup_flatMap]
  constructor
  · intro i _
    refine List.Nodup.map ?_ (List.nodup_range' ..)
    intro a b hab
    simpa using congrArg Prod.snd hab
  · refine List.Pairwise.imp ?_ (List.pairwise_lt_range k)
    intro a b hab
    rw [Function.onFun, List.disjoint_left]
    rintro ⟨i, j⟩ hmem hmem'
    obtain ⟨_, _, heq⟩ := List.mem_map.mp hmem
    obtain ⟨_, _, heq'⟩ := List.mem_map.mp hmem'
    cases heq
    cases heq'
    omega

lemma offsetPairs_mem (s k i j : ℕ) :
    (i, j) ∈ offsetPairs s k ↔ s ≤ i ∧ i < j ∧ j < s + k := by
  simp only [offsetPairs, List.mem_map]
  constructor
  · rintro ⟨ij', hij', heq⟩
    have hm := (pairIndices_mem k ij').mp hij'
    cases heq
    omega
  · rintro ⟨h1, h2, h3⟩
    refine ⟨(i - s, j - s), (pairIndices_mem k _).mpr (by simp; omega), ?_⟩
    simp only [Prod.mk.injEq]
    omega

lemma offsetPairs_nodup (s k : ℕ) : (offsetPairs s k).Nodup := by
  refine List.Nodup.map ?_ (pairIndices_nodup k)
  rintro ⟨a, b⟩ ⟨c, d⟩ h
  simp only [Prod.mk.injEq] at h ⊢
  omega

lemma globalTestedPairs_zero_len (n s : ℕ) : globalTestedPairs n s 0 = [] := by
  rw [globalTestedPairs]
  simp

lemma globalTestedPairs_pos (n s len : ℕ) (hn : n ≠ 0) (hlen : len ≠ 0) :
    globalTestedPairs n s len =
      offsetPairs s (min n len) ++ globalTestedPairs n (s + n) (len - n) := by
  rw [globalTestedPairs]
  simp [hn, hlen]

/-- Shifting the start offset shifts every examined pair. -/
lemma globalTestedPairs_shift (n : ℕ) (hn : n ≠ 0) :
    ∀ (budget len s : ℕ), len ≤ budget →
      globalTestedPairs n s len =
        (globalTestedPairs n 0 len).map fun ij => (s + ij.1, s + ij.2) := by
  intro budget
  induction budget with
  | zero =>
    intro len s h
    have h0 : len = 0 := by omega
    subst h0
    simp [globalTestedPairs_zero_len]
  | succ m ih =>
    intro len s hlen
    by_cases h0 : len = 0
    · subst h0
      simp [globalTestedPairs_zero_len]
    · rw [globalTestedPairs_pos n s len hn h0, globalTestedPairs_pos n 0 len hn h0,
        List.map_append]
      congr 1
      · simp only [offsetPairs, List.map_map]
        apply List.map_congr_left
        intro ij _
        simp [Function.comp]
      · rw [ih (len - n) (s + n) (by omega), ih (len - n) (0 + n) (by omega),
          List.map_map]
        apply List.map_congr_left
        intro ij _
        simp only [Function.comp, Prod.mk.injEq]
        omega

/-- Which pairs the chunked scan examines, at chunk size 4: exactly the pairs
`i < j` inside the sequence whose indices lie in the same chunk
(`i / 4 = j / 4`). -/
lemma globalTestedPairs_mem_four :
    ∀ (budget len : ℕ), len ≤ budget → ∀ i j : ℕ,
      ((i, j) ∈ globalTestedPairs 4 0 len ↔ i < j ∧ j < len ∧ i / 4 = j / 4) := by
  intro budget
  induction budget with
  | zero =>
    intro len h i j
    have h0 : len = 0 := by omega
    subst h0
    simp [globalTestedPairs_zero_len]
  | succ m ih =>
    intro len hlen i j
    by_cases h0 : len = 0
    · subst h0
      simp [globalTestedPairs_zero_len]
    · rw [globalTestedPairs_pos 4 0 len (by norm_num) h0,
        globalTestedPairs_shift 4 (by norm_num) (len - 4) (len - 4) (0 + 4) le_rfl,
        List.mem_append]
      constructor
      · intro h
        rcases h with h | h
        · rw [offsetPairs_mem] at h
          omega
        · obtain ⟨⟨a, b⟩, hab, heq⟩ := List.mem_map.mp h
          have hm := (ih (len - 4) (by omega) a b).mp hab
          rw [Prod.mk.injEq] at heq
          obtain ⟨rfl, rfl⟩ := heq
          omega
      · rintro ⟨h1, h2, h3⟩
        by_cases hj : j < min 4 len
        · left
          rw [offsetPairs_mem]
          omega
        · right
          refine List.mem_map.mpr
            ⟨(i - 4, j - 4), (ih (len - 4) (by omega) _ _).mpr (by omega), ?_⟩
          rw [Prod.mk.injEq]
          omega

/-- The chunked scan examines each pair at most once. -/
lemma globalTestedPairs_nodup_four :
    ∀ (budget len : ℕ), len ≤ budget → (globalTestedPairs 4 0 len).Nodup := by
  intro budget
  induction budget with
  | zero =>
    intro len h
    have h0 : len = 0 := by omega
    subst h0
    simp [globalTestedPairs_zero_len]
  | succ m ih =>
    intro len hlen
    by_cases h0 : len = 0
    · subst h0
      simp [globalTestedPairs_zero_len]
    · rw [globalTestedPairs_pos 4 0 len (by norm_num) h0,
        globalTestedPairs_shift 4 (by norm_num) (len - 4) (len - 4) (0 + 4) le_rfl]
      refine List.Nodup.append (offsetPairs_nodup 0 (min 4 len)) ?_ ?_
      · refine List.Nodup.map ?_ (ih (len - 4) (by omega))
        rintro ⟨a, b⟩ ⟨c, d⟩ h
        simp only [Prod.mk.injEq] at h ⊢
        omega
      · rw [List.disjoint_left]
        rintro ⟨i, j⟩ hmem hmem'
        have h1 := (offsetPairs_mem 0 (min 4 len) i j).mp hmem
        obtain ⟨⟨a, b⟩, _, heq⟩ := List.mem_map.mp hmem'
        rw [Prod.mk.injEq] at heq
        omega

lemma getD_drop (l : List Particle) (n i : ℕ) :
    (l.drop n).getD i default = l.getD (n + i) default := by
  simp [List.getD_eq_getElem?_getD, List.getElem?_drop]

lemma getD_take (l : List Particle) (n i : ℕ) (h : i < n) :
    (l.take n).getD i default = l.getD i default := by
  simp [List.getD_eq_getElem?_getD, List.getElem?_take_of_lt h]

/-- The shared counter accumulates the per-chunk counts: folding the chunk
scans over any chunk list adds the sum of the chunk counts. -/
lemma foldl_thread_check (t : ℚ) (chunks : List (List Particle)) (c : ℕ) :
    chunks.foldl (fun acc chunk => thread_check_collisions chunk t acc) c
      = c + (chunks.map fun chunk => thread_check_collisions chunk t 0).sum := by
  induction chunks generalizing c with
  | nil => simp
  | cons ch chs ih =>
    rw [List.foldl_cons, ih, List.map_cons, List.sum_cons]
    simp only [thread_check_collisions]
    omega

/-- The sum of the per-chunk pair counts is the count over the global tested
pairs, for any (position-dependent) predicate on particle pairs. -/
lemma chunked_countP_global (P : Particle → Particle → Bool) :
    ∀ (budget : ℕ) (ps : List Particle), ps.length ≤ budget →
      ((chunksOf 4 ps).map fun chunk =>
          (pairIndices chunk.length).countP fun ij =>
            P (chunk.getD ij.1 default) (chunk.getD ij.2 default)).sum
        = (globalTestedPairs 4 0 ps.length).countP fun ij =>
            P (ps.getD ij.1 default) (ps.getD ij.2 default) := by
  intro budget
  induction budget with
  | zero =>
    intro ps h
    have h0 : ps = [] := List.eq_nil_of_length_eq_zero (Nat.le_zero.mp h)
    subst h0
    simp [chunksOf_nil, globalTestedPairs_zero_len]
  | succ m ih =>
    intro ps hps
    cases ps with
    | nil => simp [chunksOf_nil, globalTestedPairs_zero_len]
    | cons p ps' =>
      rw [chunksOf_cons 4 (by norm_num) p ps', List.map_cons, List.sum_cons,
        ih ((p :: ps').drop 4)
          (by simp only [List.length_drop, List.length_cons]
              simp only [List.length_cons] at hps
              omega),
        globalTestedPairs_pos 4 0 (p :: ps').length (by norm_num) (by simp),
        List.countP_append]
      simp only [List.length_drop, List.length_take, List.length_cons]
      congr 1
      · simp only [offsetPairs, List.countP_map]
        apply List.countP_congr
        intro ij hij
        have hm := (pairIndices_mem _ ij).mp hij
        simp only [Function.comp]
        rw [getD_take _ 4 ij.1 (by omega), getD_take _ 4 ij.2 (by omega)]
        simp
      · rw [globalTestedPairs_shift 4 (by norm_num) (ps'.length + 1 - 4)
            (ps'.length + 1 - 4) (0 + 4) le_rfl, List.countP_map]
        apply List.countP_congr
        intro ij hij2
        simp only [Function.comp, getD_drop, List.getD_eq_getElem?_getD,
          List.getElem?_drop]

lemma collide_true_iff (a b : Particle) (t : ℚ) :
    a.collide b t = true ↔ (a.x - b.x) ^ 2 + (a.y - b.y) ^ 2 ≤ t ^ 2 := by
  simp [Particle.collide, pow_two]

/-- The count over the global tested pairs is the cardinality of the set of
colliding same-chunk index pairs. -/
lemma countP_global_eq_card (t : ℚ) (ps : List Particle) :
    ((globalTestedPairs 4 0 ps.length).countP fun ij =>
        (ps.getD ij.1 default).collide (ps.getD ij.2 default) t)
      = collidingPairCount t ps := by
  rw [List.countP_eq_length_filter]
  have hnd : ((globalTestedPairs 4 0 ps.length).filter fun ij =>
      (ps.getD ij.1 default).collide (ps.getD ij.2 default) t).Nodup :=
    (globalTestedPairs_nodup_four ps.length ps.length le_rfl).filter _
  rw [← List.toFinset_card_of_nodup hnd]
  unfold collidingPairCount
  congr 1
  ext ij
  obtain ⟨i, j⟩ := ij
  simp only [List.mem_toFinset, List.mem_filter, Finset.mem_filter,
    Finset.mem_product, Finset.mem_range]
  rw [globalTestedPairs_mem_four ps.length ps.length le_rfl i j]
  constructor
  · rintro ⟨⟨h1, h2, h3⟩, hc⟩
    exact ⟨⟨by omega, h2⟩, h1, h3, (collide_true_iff _ _ t).mp hc⟩
  · rintro ⟨⟨hi, hj⟩, h1, h3, hd⟩
    exact ⟨⟨h1, hj, h3⟩, (collide_true_iff _ _ t).mpr hd⟩

/-- Claim C2: one call to `check_collisions` leaves every particle position
unchanged and increases the collision counter by exactly the number of
unordered same-chunk index pairs whose particles are at squared distance at
most `threshold²` at the time of the call; in particular the counter never
decreases. -/
theorem check_collisions_spec (sys : ParticleSystem) (t : ℚ) :
    (sys.check_collisions t).particles = sys.particles ∧
    (sys.check_collisions t).collision_counter
      = sys.collision_counter + collidingPairCount t sys.particles ∧
    sys.collision_counter ≤ (sys.check_collisions t).collision_counter := by
  have hc : (sys.check_collisions t).collision_counter
      = sys.collision_counter + collidingPairCount t sys.particles := by
    show (chunksOf 4 sys.particles).foldl
        (fun c chunk => thread_check_collisions chunk t c) sys.collision_counter
      = sys.collision_counter + collidingPairCount t sys.particles
    rw [foldl_thread_check]
    congr 1
    calc ((chunksOf 4 sys.particles).map
            fun chunk => thread_check_collisions chunk t 0).sum
        = ((chunksOf 4 sys.particles).map fun chunk =>
            (pairIndices chunk.length).countP fun ij =>
              (chunk.getD ij.1 default).collide (chunk.getD ij.2 default) t).sum := by
          simp [thread_check_collisions]
      _ = (globalTestedPairs 4 0 sys.particles.length).countP fun ij =>
            (sys.particles.getD ij.1 default).collide
              (sys.particles.getD ij.2 default) t :=
          chunked_countP_global (fun a b => a.collide b t)
            sys.particles.length sys.particles le_rfl
      _ = collidingPairCount t sys.particles := countP_global_eq_card t sys.particles
  exact ⟨rfl, hc, by rw [hc]; exact Nat.le_add_right _ _⟩

/-- Claim C3: the chunked scan examines exactly the unordered index pairs
`(i, j)` with `i < j` that lie inside a single chunk — each such pair exactly
once (the tested-pair list has no duplicates), and no pair whose indices fall
in two different chunks (`i / NUM_OF_THREADS ≠ j / NUM_OF_THREADS`) is ever in
the list, whatever the particle positions (the tested pairs depend only on the
particle count); the per-chunk pair counts of `thread_check_collisions` total
the count over exactly this list. -/
theorem tested_pairs_spec (ps : List Particle) (t : ℚ) :
    (globalTestedPairs NUM_OF_THREADS 0 ps.length).Nodup ∧
    (∀ i j : ℕ, (i, j) ∈ globalTestedPairs NUM_OF_THREADS 0 ps.length ↔
        i < j ∧ j < ps.length ∧ i / NUM_OF_THREADS = j / NUM_OF_THREADS) ∧
    ((chunksOf NUM_OF_THREADS ps).map fun chunk =>
        (pairIndices chunk.length).countP fun ij =>
          (chunk.getD ij.1 default).collide (chunk.getD ij.2 default) t).sum
      = (globalTestedPairs NUM_OF_THREADS 0 ps.length).countP fun ij =>
          (ps.getD ij.1 default).collide (ps.getD ij.2 default) t :=
  ⟨globalTestedPairs_nodup_four ps.length ps.length le_rfl,
   fun i j => globalTestedPairs_mem_four ps.length ps.length le_rfl i j,
   chunked_countP_global (fun a b => a.collide b t) ps.length ps le_rfl⟩

end CollidingParticles
